import Mathlib

/-
  Shallow embedding of src/src/main.cpp (Minecraft-mod-classifier).

  Strings are modelled at the byte level (List Nat), matching the C++
  std::string operations, which act on bytes.  Each std::regex_replace call
  of getCleanModName is embedded as a dedicated scanner that reproduces the
  leftmost, first-alternative, greedy-with-backtracking semantics of the
  ECMAScript engine for that concrete pattern.
-/

namespace ModClassifier

abbrev Str := List Nat

/-- Byte list of an ASCII string literal. -/
def ascii (s : String) : Str := s.data.map Char.toNat

/-- std::tolower on an unsigned char in the C locale: ASCII A-Z map to a-z,
every other byte is unchanged (main.cpp line 197). -/
def toLowerByte (b : Nat) : Nat := if 65 ≤ b ∧ b ≤ 90 then b + 32 else b

def lowerStr (s : Str) : Str := s.map toLowerByte

def isDigit (b : Nat) : Bool := 48 ≤ b && b ≤ 57

def isAlpha (b : Nat) : Bool := (65 ≤ b && b ≤ 90) || (97 ≤ b && b ≤ 122)

/-- ECMAScript whitespace class (subset relevant to bytes): space, tab, LF, VT, FF, CR. -/
def isWs (b : Nat) : Bool := b = 32 || b = 9 || b = 10 || b = 11 || b = 12 || b = 13

/-- Split at the last dot (fullFileName.rfind of the dot, main.cpp lines 125-135):
first component is the stem, second the extension including the dot. -/
def splitExt : Str → Str × Str
  | [] => ([], [])
  | c :: rest =>
    if c = 46 ∧ 46 ∉ rest then ([], c :: rest)
    else if 46 ∈ rest then
      let p := splitExt rest
      (c :: p.1, p.2)
    else (c :: rest, [])

/-- The list after the first closing bracket (byte 93), if one exists. -/
def dropThroughClose : Str → Option Str
  | [] => none
  | c :: rest => if c = 93 then some rest else dropThroughClose rest

/-- Global replacement of bracketed segments (main.cpp line 139):
at an opening bracket, the greedy non-bracket run plus the first closing
bracket is the match and is deleted; an opening bracket with no later
closing bracket does not match and is kept. -/
def stripBracketsF : Nat → Str → Str
  | 0, s => s
  | _ + 1, [] => []
  | fuel + 1, c :: rest =>
    if c = 91 then
      match dropThroughClose rest with
      | some r => stripBracketsF fuel r
      | none => c :: stripBracketsF fuel rest
    else c :: stripBracketsF fuel rest

def stripBrackets (s : Str) : Str := stripBracketsF (s.length + 1) s

/-- Consume a maximal run of groups of one dot followed by one or more digits. -/
def dotDigitsStarF : Nat → Str → Str
  | 0, s => s
  | fuel + 1, s =>
    match s with
    | c1 :: c2 :: rest =>
      if c1 = 46 ∧ isDigit c2 then dotDigitsStarF fuel (rest.dropWhile isDigit)
      else c1 :: c2 :: rest
    | _ => s

/-- Anchored leading Minecraft-version match (main.cpp line 144): digits, dot,
digits, further dot-digit groups, then a hyphen or underscore; returns the
remainder after the match when the head of the string matches. -/
def parseLeadingVersion (s : Str) : Option Str :=
  let d0 := s.takeWhile isDigit
  let r0 := s.dropWhile isDigit
  if d0.isEmpty then none
  else
    match r0 with
    | c0 :: r1 =>
      if c0 = 46 then
        let d1 := r1.takeWhile isDigit
        let r2 := r1.dropWhile isDigit
        if d1.isEmpty then none
        else
          match dotDigitsStarF (r2.length + 1) r2 with
          | c3 :: r4 => if c3 = 45 ∨ c3 = 95 then some r4 else none
          | [] => none
      else none
    | [] => none

/-- Remove one leading Minecraft-version prefix (main.cpp lines 144-145). -/
def stripLeadingVersion (s : Str) : Str := (parseLeadingVersion s).getD s

/-- Match of whitespace, the word for (case-insensitive), whitespace, letters,
at the head of the string (main.cpp line 149); returns the remainder. -/
def matchForAt (s : Str) : Option Str :=
  let w1 := s.takeWhile isWs
  let r1 := s.dropWhile isWs
  if w1.isEmpty then none
  else
    match r1 with
    | a :: b :: c :: r2 =>
      if (a = 102 || a = 70) && (b = 111 || b = 79) && (c = 114 || c = 82) then
        let w2 := r2.takeWhile isWs
        let r3 := r2.dropWhile isWs
        if w2.isEmpty then none
        else
          let ls := r3.takeWhile isAlpha
          let r4 := r3.dropWhile isAlpha
          if ls.isEmpty then none else some r4
      else none
    | _ => none

/-- Global removal of the for-loader phrases (main.cpp lines 149-150). -/
def stripForLoaderF : Nat → Str → Str
  | 0, s => s
  | _ + 1, [] => []
  | fuel + 1, c :: rest =>
    match matchForAt (c :: rest) with
    | some r => stripForLoaderF fuel r
    | none => c :: stripForLoaderF fuel rest

def stripForLoader (s : Str) : Str := stripForLoaderF (s.length + 1) s

/-- Separator class of the suffix regex (main.cpp line 163): hyphen,
underscore, plus, whitespace, dot. -/
def isSep (b : Nat) : Bool := b = 45 || b = 95 || b = 43 || isWs b || b = 46

/-- Inner separator class of the version alternative: dot, underscore, hyphen. -/
def isSep2 (b : Nat) : Bool := b = 46 || b = 95 || b = 45

/-- Character class of a version chunk: digits, letters, underscore, plus, hyphen. -/
def isChunk (b : Nat) : Bool := isDigit b || isAlpha b || b = 95 || b = 43 || b = 45

mutual

/-- Zero or more groups of one inner separator followed by one or more chunk
characters, consuming the string exactly.  A dot can only be a separator, so
it always opens a new group; hyphen and underscore prefer the chunk reading,
which subsumes the separator reading. -/
def groupsMatch : Str → Bool
  | [] => true
  | c :: rest => isSep2 c && chunkThen rest

def chunkThen : Str → Bool
  | [] => false
  | c :: rest => isChunk c && chunkCont rest

def chunkCont : Str → Bool
  | [] => true
  | c :: rest => if c = 46 then chunkThen rest else isChunk c && chunkCont rest

end

/-- Version alternative of the suffix regex: optional v, digits, then
separator-chunk groups, covering the whole string. -/
def versionAlt (s : Str) : Bool :=
  let s1 := match s with
    | c :: rest => if c = 118 || c = 86 then rest else s
    | [] => s
  let d := s1.takeWhile isDigit
  let r := s1.dropWhile isDigit
  !d.isEmpty && groupsMatch r

mutual

/-- Zero or more groups of a dot followed by one or more digits, covering the
whole string. -/
def dotDigitsOnly : Str → Bool
  | [] => true
  | c :: rest => if c = 46 then dArm rest else false

def dArm : Str → Bool
  | [] => false
  | c :: rest => isDigit c && dCont rest

def dCont : Str → Bool
  | [] => true
  | c :: rest => if c = 46 then dArm rest else isDigit c && dCont rest

end

/-- Minecraft-version alternative of the suffix regex: mc (case-insensitive),
digits, then dot-digit groups, covering the whole string. -/
def mcAlt : Str → Bool
  | a :: b :: rest =>
    if (a = 109 ∨ a = 77) ∧ (b = 99 ∨ b = 67) then
      !(rest.takeWhile isDigit).isEmpty && dotDigitsOnly (rest.dropWhile isDigit)
    else false
  | _ => false

/-- The literal keyword alternatives of the suffix regex (main.cpp lines 167-169). -/
def suffixKeywords : List Str :=
  [ascii "forge", ascii "fabric", ascii "quilt", ascii "neoforge", ascii "rift",
   ascii "liteloader", ascii "nilloader", ascii "snapshot", ascii "pre", ascii "rc",
   ascii "beta", ascii "alpha", ascii "universal", ascii "all"]

def keywordAlt (s : Str) : Bool := suffixKeywords.any (fun w => lowerStr s == w)

/-- The alternation inside the suffix regex, matching the whole string. -/
def tokenMatch (s : Str) : Bool := versionAlt s || mcAlt s || keywordAlt s

/-- One application of regex_replace with the end-anchored suffix regex
(main.cpp lines 162-172): the leftmost position holding a separator whose
entire remaining tail matches the alternation is found, and everything from
that position on is removed; none when there is no match. -/
def peelOnce : Str → Option Str
  | [] => none
  | c :: rest =>
    if isSep c ∧ tokenMatch rest then some []
    else (peelOnce rest).map (fun k => c :: k)

def peelStep (s : Str) : Str := (peelOnce s).getD s

/-- The do-while loop of main.cpp lines 177-180: repeat peelStep until a
fixed point is reached.  Each changing step removes at least two bytes, so
length-plus-one fuel always suffices. -/
def peelLoopF : Nat → Str → Str
  | 0, s => s
  | fuel + 1, s =>
    let t := peelStep s
    if t = s then s else peelLoopF fuel t

def peelLoop (s : Str) : Str := peelLoopF (s.length + 1) s

/-- Collapse runs of spaces to a single space (main.cpp line 185). -/
def collapseSpaces : Str → Str
  | [] => []
  | [c] => [c]
  | c1 :: c2 :: rest =>
    if c1 = 32 ∧ c2 = 32 then collapseSpaces (c2 :: rest)
    else c1 :: collapseSpaces (c2 :: rest)

def trimLeft (s : Str) : Str := s.dropWhile (fun b => b == 32)

/-- Trim leading and trailing spaces, and only spaces (main.cpp lines 187-193). -/
def trimSpaces (s : Str) : Str := trimLeft ((trimLeft s.reverse).reverse)

/-- Embedding of getCleanModName (main.cpp lines 123-200).  Note that the
replacement stages and the final lowercasing act on the stem only; the
extension is re-appended verbatim. -/
def getCleanModName (fullFileName : Str) : Str :=
  let p := splitExt fullFileName
  let s1 := stripBrackets p.1
  let s2 := stripLeadingVersion s1
  let s3 := stripForLoader s2
  let s4 := peelLoop s3
  let s5 := collapseSpaces s4
  let s6 := trimSpaces s5
  lowerStr s6 ++ p.2

/-- The seven mod categories (main.cpp lines 82-90). -/
inductive ModType where
  | ClientOnly
  | ServerOnly
  | ClientRequiredServerOptional
  | ClientOptionalServerRequired
  | ClientAndServerRequired
  | ClientOptionalServerOptional
  | Unknown
deriving DecidableEq

/-- ModInfo.stringToModType (main.cpp lines 97-105): unrecognized wire tags map
to Unknown. -/
def stringToModType (t : Str) : ModType :=
  if t = ascii "client_only" then ModType.ClientOnly
  else if t = ascii "server_only" then ModType.ServerOnly
  else if t = ascii "client_required_server_optional" then ModType.ClientRequiredServerOptional
  else if t = ascii "client_optional_server_required" then ModType.ClientOptionalServerRequired
  else if t = ascii "client_and_server_required" then ModType.ClientAndServerRequired
  else if t = ascii "client_optional_server_optional" then ModType.ClientOptionalServerOptional
  else ModType.Unknown

/-- ModInfo.modTypeToDirectory (main.cpp lines 108-118). -/
def modTypeToDirectory : ModType → Str
  | ModType.ClientOnly => ascii "ClientOnly"
  | ModType.ServerOnly => ascii "ServerOnly"
  | ModType.ClientRequiredServerOptional => ascii "ClientRequiredServerOptional"
  | ModType.ClientOptionalServerRequired => ascii "ClientOptionalServerRequired"
  | ModType.ClientAndServerRequired => ascii "ClientAndServerRequired"
  | ModType.ClientOptionalServerOptional => ascii "ClientOptionalServerOptional"
  | ModType.Unknown => ascii "Unknown"

/-- The category subdirectories that classifyMods creates under the output
root before classifying (main.cpp lines 244-249). -/
def createdSubdirs : List Str :=
  [ascii "ClientOnly", ascii "ServerOnly", ascii "ClientRequiredServerOptional",
   ascii "ClientOptionalServerRequired", ascii "ClientAndServerRequired",
   ascii "ClientOptionalServerOptional"]

structure ModInfo where
  name : Str
  type : ModType
deriving DecidableEq

/-- Parsed JSON values, the view the catalog loader operates on after
json::parse succeeds. -/
inductive Json where
  | null
  | bool (b : Bool)
  | num (n : Int)
  | str (s : Str)
  | arr (items : List Json)
  | obj (fields : List (Str × Json))

def Json.isObject : Json → Bool
  | Json.obj _ => true
  | _ => false

/-- Field lookup in an object; none on other values. -/
def Json.findField : Json → Str → Option Json
  | Json.obj fs, k => (fs.find? (fun p => p.1 == k)).map (fun p => p.2)
  | _, _ => none

/-- item.count of a key, as a boolean. -/
def Json.hasKey (j : Json) (k : Str) : Bool := (j.findField k).isSome

/-- get of a std::string from a field value: some only when the value is a
JSON string; a non-string value makes the C++ get throw json::type_error. -/
def Json.getStr : Option Json → Option Str
  | some (Json.str s) => some s
  | _ => none

/-- The element loop of readModDataFromJson (main.cpp lines 219-232).  An
element that is not an object or lacks the name or type key is skipped and
the loop continues; an element whose name or type field is present but not a
string makes get throw, and the exception is caught outside the loop, so the
entries accumulated so far are returned and the remaining elements are lost. -/
def readModsLoop : List Json → List ModInfo → List ModInfo
  | [], acc => acc.reverse
  | item :: rest, acc =>
    if item.isObject && item.hasKey (ascii "name") && item.hasKey (ascii "type") then
      match Json.getStr (item.findField (ascii "name")),
            Json.getStr (item.findField (ascii "type")) with
      | some n, some t =>
        readModsLoop rest ({ name := lowerStr n, type := stringToModType t } :: acc)
      | _, _ => acc.reverse
    else readModsLoop rest acc

/-- readModDataFromJson (main.cpp lines 203-238) on an already parsed
document: a non-array root yields an empty catalog. -/
def readModDataFromJson : Json → List ModInfo
  | Json.arr items => readModsLoop items []
  | _ => []

/-- Destination path inside the output root: category subdirectory paired
with the original filename. -/
abbrev DestPath := Str × Str

/-- The per-file outcome of the classifier loop (main.cpp lines 259-290). -/
inductive CAction where
  | copied (p : DestPath)
  | skippedExisting (p : DestPath)
  | unmatched (name : Str)
deriving DecidableEq

/-- Lookup in the std::map built by inserting each catalog entry in order
(main.cpp lines 253-256): on duplicate names the last entry wins. -/
def catalogFind (mods : List ModInfo) (key : Str) : Option ModType :=
  ((mods.map (fun m => (m.name, m.type))).reverse.find? (fun p => p.1 == key)).map
    (fun p => p.2)

/-- One iteration of the classifier loop (main.cpp lines 259-290) over a
regular file, with the set of regular files already present in the output
tree as explicit state.  On a hit whose destination already exists as a
regular file, a skip line is logged and nothing is copied; otherwise the
file is copied, making the destination a regular file. -/
def classifyOne (mods : List ModInfo) (st : List DestPath) (name : Str) :
    CAction × List DestPath :=
  match catalogFind mods (getCleanModName name) with
  | some t =>
    let p : DestPath := (modTypeToDirectory t, name)
    if p ∈ st then (CAction.skippedExisting p, st) else (CAction.copied p, p :: st)
  | none => (CAction.unmatched name, st)

/-- The classifier loop over the directory listing. -/
def runClassify (mods : List ModInfo) (names : List Str) (st : List DestPath) :
    List CAction × List DestPath :=
  match names with
  | [] => ([], st)
  | n :: rest =>
    let r := classifyOne mods st n
    let r2 := runClassify mods rest r.2
    (r.1 :: r2.1, r2.2)

/-- The action the classifier takes on a file when every catalog hit already
has its destination present: a skip per hit, an unmatched report per miss. -/
def secondRunAction (mods : List ModInfo) (n : Str) : CAction :=
  match catalogFind mods (getCleanModName n) with
  | some t => CAction.skippedExisting (modTypeToDirectory t, n)
  | none => CAction.unmatched n

/- ===== Concrete inputs ===== -/

/-- UTF-8 bytes of the bracketed Chinese-named ironchests filename from the
specification scenarios. -/
def ironchestsName : Str :=
  [91, 230, 136, 145, 231, 154, 132, 228, 184, 150, 231, 149, 140, 194, 183, 73, 114, 111,
   110, 32, 67, 104, 101, 115, 116, 115, 93, 105, 114, 111, 110, 99, 104, 101, 115, 116,
   115, 45, 102, 111, 114, 103, 101, 49, 46, 50, 48, 46, 49, 45, 49, 52, 46, 52, 46, 52,
   46, 106, 97, 114]

/-- UTF-8 bytes of a middle-dot filename: a, U+00B7 (bytes 194 183), b, dot, jar. -/
def midDotName : Str := [97, 194, 183, 98, 46, 106, 97, 114]

/-- UTF-8 bytes of a mixed-script filename: two Chinese characters, abc, dot, jar. -/
def zhName : Str := [228, 184, 173, 230, 150, 135, 97, 98, 99, 46, 106, 97, 114]

/-- A well-formed catalog element mapping A.jar to client_only. -/
def goodItem1 : Json :=
  Json.obj [(ascii "name", Json.str (ascii "A.jar")),
            (ascii "type", Json.str (ascii "client_only"))]

/-- A well-formed catalog element mapping B.jar to server_only. -/
def goodItem2 : Json :=
  Json.obj [(ascii "name", Json.str (ascii "B.jar")),
            (ascii "type", Json.str (ascii "server_only"))]

/-- A catalog element whose name field is present but holds a number. -/
def badItem : Json :=
  Json.obj [(ascii "name", Json.num 3),
            (ascii "type", Json.str (ascii "client_only"))]

/- ===== Helper lemmas ===== -/

theorem isDigit_lt (b : Nat) (h : isDigit b = true) : b < 128 := by
  simp [isDigit] at h; omega

theorem isAlpha_lt (b : Nat) (h : isAlpha b = true) : b < 128 := by
  simp [isAlpha] at h; omega

theorem isWs_lt (b : Nat) (h : isWs b = true) : b < 128 := by
  simp [isWs] at h; omega

theorem isSep_lt (b : Nat) (h : isSep b = true) : b < 128 := by
  simp [isSep, isWs] at h; omega

theorem isSep2_lt (b : Nat) (h : isSep2 b = true) : b < 128 := by
  simp [isSep2] at h; omega

theorem isChunk_lt (b : Nat) (h : isChunk b = true) : b < 128 := by
  simp [isChunk, isDigit, isAlpha] at h; omega

theorem toLowerByte_not_upper (b : Nat) : ¬(65 ≤ toLowerByte b ∧ toLowerByte b ≤ 90) := by
  unfold toLowerByte
  by_cases h : 65 ≤ b ∧ b ≤ 90
  · rw [if_pos h]; omega
  · rw [if_neg h]; exact h

theorem toLowerByte_eq_space (b : Nat) (h : toLowerByte b = 32) : b = 32 := by
  unfold toLowerByte at h
  by_cases hb : 65 ≤ b ∧ b ≤ 90 <;> simp [hb] at h <;> omega

theorem toLowerByte_high (b : Nat) (h : 128 ≤ b) : toLowerByte b = b := by
  unfold toLowerByte
  have : ¬(65 ≤ b ∧ b ≤ 90) := by omega
  simp [this]

theorem toLowerByte_lt (b : Nat) (h : toLowerByte b < 128) : b < 128 := by
  unfold toLowerByte at h
  by_cases hb : 65 ≤ b ∧ b ≤ 90 <;> simp [hb] at h <;> omega

theorem splitExt_append (y x : Str) (hx : 46 ∉ x) : splitExt (y ++ 46 :: x) = (y, 46 :: x) := by
  induction y with
  | nil =>
    simp [splitExt, hx]
  | cons a y ih =>
    have hmem : 46 ∈ y ++ 46 :: x := by simp
    by_cases ha : a = 46 ∧ 46 ∉ y ++ 46 :: x
    · exact absurd hmem ha.2
    · simp [splitExt, ha, hmem, ih]

theorem splitExt_snd_shape (f : Str) : (splitExt f).2 = [] ∨ ∃ x, (splitExt f).2 = 46 :: x := by
  induction f with
  | nil => left; rfl
  | cons c rest ih =>
    by_cases h1 : c = 46 ∧ 46 ∉ rest
    · right; exact ⟨rest, by simp [splitExt, h1, h1.1]⟩
    · by_cases h2 : 46 ∈ rest
      · simpa [splitExt, h1, h2] using ih
      · have hc : ¬(c = 46) := fun hc => h1 ⟨hc, h2⟩
        left; simp [splitExt, h1, h2, hc]

theorem head?_dropWhile_not {p : Nat → Bool} {l : Str} {a : Nat}
    (h : (l.dropWhile p).head? = some a) : p a = false := by
  induction l with
  | nil => simp [List.dropWhile] at h
  | cons c rest ih =>
    by_cases hc : p c
    · simpa [List.dropWhile, hc] using ih (by simpa [List.dropWhile, hc] using h)
    · simp [List.dropWhile, hc] at h
      subst h
      simpa using hc

theorem mem_dropWhile_ne {l : Str} {b : Nat} (hb : b ∈ l) (hne : b ≠ 32) :
    b ∈ l.dropWhile (fun c => c == 32) := by
  induction l with
  | nil => simp at hb
  | cons c rest ih =>
    by_cases hc : c = 32
    · have hbr : b ∈ rest := by
        rcases List.mem_cons.mp hb with h | h
        · exact absurd (h.trans hc) hne
        · exact h
      simpa [List.dropWhile_cons, hc] using ih hbr
    · simpa [List.dropWhile_cons, hc] using hb

theorem mem_trimSpaces {s : Str} {b : Nat} (hb : b ∈ s) (hne : b ≠ 32) :
    b ∈ trimSpaces s := by
  unfold trimSpaces trimLeft
  apply mem_dropWhile_ne _ hne
  rw [List.mem_reverse]
  apply mem_dropWhile_ne _ hne
  rw [List.mem_reverse]
  exact hb

theorem mem_takeWhile_digit_lt {l : Str} {b : Nat} (h : b ∈ l.takeWhile isDigit) : b < 128 :=
  isDigit_lt b (List.mem_takeWhile_imp h)

theorem dotDigitsStarF_split (fuel : Nat) (s : Str) :
    ∃ pre, s = pre ++ dotDigitsStarF fuel s ∧ ∀ c ∈ pre, c < 128 := by
  induction fuel generalizing s with
  | zero => exact ⟨[], by simp [dotDigitsStarF]⟩
  | succ fuel ih =>
    rcases s with _ | ⟨c1, _ | ⟨c2, rest⟩⟩
    · exact ⟨[], by simp [dotDigitsStarF]⟩
    · exact ⟨[], by simp [dotDigitsStarF]⟩
    by_cases hc : c1 = 46 ∧ isDigit c2 = true
    · obtain ⟨pre, hpre, hlt⟩ := ih (rest.dropWhile isDigit)
      refine ⟨c1 :: c2 :: rest.takeWhile isDigit ++ pre, ?_, ?_⟩
      · have hred : dotDigitsStarF (fuel + 1) (c1 :: c2 :: rest) =
            dotDigitsStarF fuel (rest.dropWhile isDigit) := by
          simp [dotDigitsStarF, hc]
        rw [hred]
        have hsplit : rest.takeWhile isDigit ++ rest.dropWhile isDigit = rest :=
          List.takeWhile_append_dropWhile isDigit rest
        calc c1 :: c2 :: rest
            = c1 :: c2 :: (rest.takeWhile isDigit ++ rest.dropWhile isDigit) := by
              rw [hsplit]
          _ = c1 :: c2 :: rest.takeWhile isDigit ++
                (pre ++ dotDigitsStarF fuel (rest.dropWhile isDigit)) := by
              rw [← hpre]; simp
          _ = (c1 :: c2 :: rest.takeWhile isDigit ++ pre) ++
                dotDigitsStarF fuel (rest.dropWhile isDigit) := by simp
      · intro x hx
        rcases List.mem_cons.mp hx with h | hx
        · have h46 := hc.1; omega
        rcases List.mem_cons.mp hx with h | hx
        · have := isDigit_lt c2 hc.2; omega
        rcases List.mem_append.mp hx with h | h
        · exact mem_takeWhile_digit_lt h
        · exact hlt x h
    · refine ⟨[], ?_, by simp⟩
      simp [dotDigitsStarF, hc]

theorem parseLeadingVersion_split {s r : Str} (h : parseLeadingVersion s = some r) :
    ∃ pre, s = pre ++ r ∧ ∀ c ∈ pre, c < 128 := by
  unfold parseLeadingVersion at h
  dsimp only at h
  split at h
  · simp at h
  split at h
  · next c0 r1 hdw =>
    split at h
    · next hc0 =>
      split at h
      · simp at h
      · split at h
        · next c3 r4 hds =>
          split at h
          · next hsep =>
            have hr : r = r4 := by simpa using h.symm
            subst hr
            obtain ⟨pre2, hpre2, hlt2⟩ :=
              dotDigitsStarF_split ((r1.dropWhile isDigit).length + 1) (r1.dropWhile isDigit)
            rw [hds] at hpre2
            refine ⟨s.takeWhile isDigit ++ c0 :: (r1.takeWhile isDigit ++ (pre2 ++ [c3])),
              ?_, ?_⟩
            · have e1 : s.takeWhile isDigit ++ s.dropWhile isDigit = s :=
                List.takeWhile_append_dropWhile isDigit s
              have e2 : r1.takeWhile isDigit ++ r1.dropWhile isDigit = r1 :=
                List.takeWhile_append_dropWhile isDigit r1
              conv_lhs => rw [← e1, hdw, ← e2, hpre2]
              simp
            · intro x hx
              rcases List.mem_append.mp hx with hx | hx
              · exact mem_takeWhile_digit_lt hx
              rcases List.mem_cons.mp hx with hx | hx
              · subst hx; omega
              rcases List.mem_append.mp hx with hx | hx
              · exact mem_takeWhile_digit_lt hx
              rcases List.mem_append.mp hx with hx | hx
              · exact hlt2 x hx
              · rcases List.mem_singleton.mp hx with rfl
                rcases hsep with h45 | h95
                · omega
                · omega
          · simp at h
        · simp at h
    · simp at h
  · simp at h

theorem mem_stripLeadingVersion {s : Str} {b : Nat} (hb : 128 ≤ b) (h : b ∈ s) :
    b ∈ stripLeadingVersion s := by
  unfold stripLeadingVersion
  rcases hp : parseLeadingVersion s with _ | r
  · simpa using h
  · obtain ⟨pre, hpre, hlt⟩ := parseLeadingVersion_split hp
    simp only [Option.getD_some]
    rw [hpre] at h
    rcases List.mem_append.mp h with hx | hx
    · exact absurd (hlt b hx) (by omega)
    · exact hx

theorem mem_takeWhile_ws_lt {l : Str} {b : Nat} (h : b ∈ l.takeWhile isWs) : b < 128 :=
  isWs_lt b (List.mem_takeWhile_imp h)

theorem mem_takeWhile_alpha_lt {l : Str} {b : Nat} (h : b ∈ l.takeWhile isAlpha) : b < 128 :=
  isAlpha_lt b (List.mem_takeWhile_imp h)

theorem matchForAt_split {s r : Str} (h : matchForAt s = some r) :
    ∃ pre, s = pre ++ r ∧ (∀ c ∈ pre, c < 128) ∧ 0 < pre.length := by
  unfold matchForAt at h
  dsimp only at h
  split at h
  · simp at h
  split at h
  · next a b c r2 hdw =>
    split at h
    · next habc =>
      split at h
      · simp at h
      · split at h
        · simp at h
        · next hls =>
          have hr : r = ((r2.dropWhile isWs).dropWhile isAlpha) := by simpa using h.symm
          subst hr
          refine ⟨s.takeWhile isWs ++ a :: b :: c ::
              (r2.takeWhile isWs ++ (r2.dropWhile isWs).takeWhile isAlpha), ?_, ?_, ?_⟩
          · have e1 : s.takeWhile isWs ++ s.dropWhile isWs = s :=
              List.takeWhile_append_dropWhile isWs s
            have e2 : r2.takeWhile isWs ++ r2.dropWhile isWs = r2 :=
              List.takeWhile_append_dropWhile isWs r2
            have e3 : (r2.dropWhile isWs).takeWhile isAlpha ++
                (r2.dropWhile isWs).dropWhile isAlpha = r2.dropWhile isWs :=
              List.takeWhile_append_dropWhile isAlpha (r2.dropWhile isWs)
            conv_lhs => rw [← e1, hdw, ← e2, ← e3]
            simp
          · intro x hx
            simp only [Bool.and_eq_true, Bool.or_eq_true, decide_eq_true_eq] at habc
            rcases List.mem_append.mp hx with hx | hx
            · exact mem_takeWhile_ws_lt hx
            rcases List.mem_cons.mp hx with hx | hx
            · rcases habc.1.1 with h1 | h1 <;> omega
            rcases List.mem_cons.mp hx with hx | hx
            · rcases habc.1.2 with h1 | h1 <;> omega
            rcases List.mem_cons.mp hx with hx | hx
            · rcases habc.2 with h1 | h1 <;> omega
            rcases List.mem_append.mp hx with hx | hx
            · exact mem_takeWhile_ws_lt hx
            · exact mem_takeWhile_alpha_lt hx
          · simp
    · simp at h
  · simp at h

theorem mem_stripForLoaderF {b : Nat} (hb : 128 ≤ b) :
    ∀ (fuel : Nat) (s : Str), b ∈ s → b ∈ stripForLoaderF fuel s := by
  intro fuel
  induction fuel with
  | zero => intro s h; simpa [stripForLoaderF] using h
  | succ fuel ih =>
    intro s h
    rcases s with _ | ⟨c, rest⟩
    · simp at h
    rcases hm : matchForAt (c :: rest) with _ | r
    · rw [stripForLoaderF, hm]
      rcases List.mem_cons.mp h with hx | hx
      · exact List.mem_cons.mpr (Or.inl hx)
      · exact List.mem_cons.mpr (Or.inr (ih rest hx))
    · rw [stripForLoaderF, hm]
      obtain ⟨pre, hpre, hlt, _⟩ := matchForAt_split hm
      rw [hpre] at h
      rcases List.mem_append.mp h with hx | hx
      · exact absurd (hlt b hx) (by omega)
      · exact ih r hx

theorem mem_stripForLoader {s : Str} {b : Nat} (hb : 128 ≤ b) (h : b ∈ s) :
    b ∈ stripForLoader s :=
  mem_stripForLoaderF hb (s.length + 1) s h

theorem groupsMachine_ascii :
    ∀ s : Str, (groupsMatch s = true ∨ chunkThen s = true ∨ chunkCont s = true) →
      ∀ x ∈ s, x < 128 := by
  intro s
  induction s with
  | nil => simp
  | cons c rest ih =>
    intro h x hx
    rcases List.mem_cons.mp hx with hx | hx
    · subst hx
      rcases h with h | h | h
      · simp only [groupsMatch, Bool.and_eq_true] at h
        exact isSep2_lt x h.1
      · simp only [chunkThen, Bool.and_eq_true] at h
        exact isChunk_lt x h.1
      · rw [chunkCont] at h
        by_cases hc : x = 46
        · omega
        · rw [if_neg hc] at h
          simp only [Bool.and_eq_true] at h
          exact isChunk_lt x h.1
    · apply ih _ x hx
      rcases h with h | h | h
      · simp only [groupsMatch, Bool.and_eq_true] at h
        exact Or.inr (Or.inl h.2)
      · simp only [chunkThen, Bool.and_eq_true] at h
        exact Or.inr (Or.inr h.2)
      · rw [chunkCont] at h
        by_cases hc : c = 46
        · rw [if_pos hc] at h
          exact Or.inr (Or.inl h)
        · rw [if_neg hc] at h
          simp only [Bool.and_eq_true] at h
          exact Or.inr (Or.inr h.2)

theorem dotDigitsMachine_ascii :
    ∀ s : Str, (dotDigitsOnly s = true ∨ dArm s = true ∨ dCont s = true) →
      ∀ x ∈ s, x < 128 := by
  intro s
  induction s with
  | nil => simp
  | cons c rest ih =>
    intro h x hx
    have hcase : (c = 46 ∧ dArm rest = true) ∨ (isDigit c = true ∧ dCont rest = true) := by
      rcases h with h | h | h
      · rw [dotDigitsOnly] at h
        by_cases hc : c = 46
        · rw [if_pos hc] at h; exact Or.inl ⟨hc, h⟩
        · rw [if_neg hc] at h; simp at h
      · rw [dArm] at h
        simp only [Bool.and_eq_true] at h
        exact Or.inr h
      · rw [dCont] at h
        by_cases hc : c = 46
        · rw [if_pos hc] at h; exact Or.inl ⟨hc, h⟩
        · rw [if_neg hc] at h
          simp only [Bool.and_eq_true] at h
          exact Or.inr h
    rcases List.mem_cons.mp hx with hx | hx
    · subst hx
      rcases hcase with ⟨hc, _⟩ | ⟨hc, _⟩
      · omega
      · exact isDigit_lt x hc
    · rcases hcase with ⟨_, hm⟩ | ⟨_, hm⟩
      · exact ih (Or.inr (Or.inl hm)) x hx
      · exact ih (Or.inr (Or.inr hm)) x hx

theorem versionCore_ascii {s1 : Str}
    (h : (!(s1.takeWhile isDigit).isEmpty && groupsMatch (s1.dropWhile isDigit)) = true) :
    ∀ x ∈ s1, x < 128 := by
  simp only [Bool.and_eq_true] at h
  intro x hx
  rw [← List.takeWhile_append_dropWhile isDigit s1] at hx
  rcases List.mem_append.mp hx with hx | hx
  · exact mem_takeWhile_digit_lt hx
  · exact groupsMachine_ascii _ (Or.inl h.2) x hx

theorem versionAlt_ascii {s : Str} (h : versionAlt s = true) : ∀ x ∈ s, x < 128 := by
  rcases s with _ | ⟨c, rest⟩
  · simp
  · unfold versionAlt at h
    dsimp only at h
    by_cases hv : (c = 118 || c = 86) = true
    · rw [if_pos hv] at h
      intro x hx
      rcases List.mem_cons.mp hx with hx | hx
      · simp only [Bool.or_eq_true, decide_eq_true_eq] at hv
        rcases hv with h1 | h1 <;> omega
      · exact versionCore_ascii h x hx
    · rw [if_neg hv] at h
      exact versionCore_ascii h

theorem mcAlt_ascii {s : Str} (h : mcAlt s = true) : ∀ x ∈ s, x < 128 := by
  rcases s with _ | ⟨a, _ | ⟨b, rest⟩⟩
  · simp [mcAlt] at h
  · simp [mcAlt] at h
  · have hred : mcAlt (a :: b :: rest) =
        if (a = 109 ∨ a = 77) ∧ (b = 99 ∨ b = 67) then
          !(rest.takeWhile isDigit).isEmpty && dotDigitsOnly (rest.dropWhile isDigit)
        else false := rfl
    rw [hred] at h
    by_cases hab : (a = 109 ∨ a = 77) ∧ (b = 99 ∨ b = 67)
    · rw [if_pos hab] at h
      simp only [Bool.and_eq_true] at h
      intro x hx
      rcases List.mem_cons.mp hx with hx | hx
      · rcases hab.1 with h1 | h1 <;> omega
      rcases List.mem_cons.mp hx with hx | hx
      · rcases hab.2 with h1 | h1 <;> omega
      · rw [← List.takeWhile_append_dropWhile isDigit rest] at hx
        rcases List.mem_append.mp hx with hx | hx
        · exact mem_takeWhile_digit_lt hx
        · exact dotDigitsMachine_ascii _ (Or.inl h.2) x hx
    · rw [if_neg hab] at h
      exact absurd h (by simp)

theorem suffixKeywords_ascii : ∀ w ∈ suffixKeywords, ∀ y ∈ w, y < 128 := by decide

theorem keywordAlt_ascii {s : Str} (h : keywordAlt s = true) : ∀ x ∈ s, x < 128 := by
  unfold keywordAlt at h
  rw [List.any_eq_true] at h
  obtain ⟨w, hw, heq⟩ := h
  rw [beq_iff_eq] at heq
  intro x hx
  have hmap : toLowerByte x ∈ lowerStr s := List.mem_map_of_mem toLowerByte hx
  rw [heq] at hmap
  have := suffixKeywords_ascii w hw (toLowerByte x) hmap
  exact toLowerByte_lt x this

theorem tokenMatch_ascii {s : Str} (h : tokenMatch s = true) : ∀ x ∈ s, x < 128 := by
  unfold tokenMatch at h
  simp only [Bool.or_eq_true] at h
  rcases h with (h | h) | h
  · exact versionAlt_ascii h
  · exact mcAlt_ascii h
  · exact keywordAlt_ascii h

theorem tokenMatch_nil : tokenMatch [] = false := by decide

theorem peelOnce_split :
    ∀ {s k : Str}, peelOnce s = some k →
      ∃ c t, s = k ++ c :: t ∧ isSep c = true ∧ tokenMatch t = true := by
  intro s
  induction s with
  | nil => intro k h; simp [peelOnce] at h
  | cons c rest ih =>
    intro k h
    rw [peelOnce] at h
    by_cases hc : isSep c = true ∧ tokenMatch rest = true
    · rw [if_pos hc] at h
      have hk : k = [] := by simpa using h.symm
      subst hk
      exact ⟨c, rest, rfl, hc.1, hc.2⟩
    · rw [if_neg hc] at h
      rcases hrec : peelOnce rest with _ | k0
      · rw [hrec] at h; simp at h
      · rw [hrec] at h
        simp only [Option.map_some', Option.some.injEq] at h
        obtain ⟨c1, t, hsplit, hsep, htok⟩ := ih hrec
        refine ⟨c1, t, ?_, hsep, htok⟩
        rw [← h, hsplit]
        simp

theorem peelStep_cases (s : Str) :
    peelStep s = s ∨
      ∃ k c t, peelStep s = k ∧ s = k ++ c :: t ∧ isSep c = true ∧ tokenMatch t = true := by
  unfold peelStep
  rcases hp : peelOnce s with _ | k
  · left; rfl
  · right
    obtain ⟨c, t, hsplit, hsep, htok⟩ := peelOnce_split hp
    exact ⟨k, c, t, rfl, hsplit, hsep, htok⟩

theorem peelStep_shortens {s : Str} (h : peelStep s ≠ s) :
    (peelStep s).length + 2 ≤ s.length := by
  rcases peelStep_cases s with hfix | ⟨k, c, t, hstep, hsplit, hsep, htok⟩
  · exact absurd hfix h
  · rw [hstep, hsplit]
    have ht : t ≠ [] := by
      intro hnil
      rw [hnil] at htok
      rw [tokenMatch_nil] at htok
      exact Bool.false_ne_true htok
    have : 1 ≤ t.length := List.length_pos.mpr ht
    simp only [List.length_append, List.length_cons]
    omega

theorem mem_peelStep {s : Str} {b : Nat} (hb : 128 ≤ b) (h : b ∈ s) : b ∈ peelStep s := by
  rcases peelStep_cases s with hfix | ⟨k, c, t, hstep, hsplit, hsep, htok⟩
  · rw [hfix]; exact h
  · rw [hstep]
    rw [hsplit] at h
    rcases List.mem_append.mp h with hx | hx
    · exact hx
    · exfalso
      rcases List.mem_cons.mp hx with hx | hx
      · subst hx
        exact absurd (isSep_lt b hsep) (by omega)
      · exact absurd (tokenMatch_ascii htok b hx) (by omega)

theorem mem_peelLoopF {b : Nat} (hb : 128 ≤ b) :
    ∀ (fuel : Nat) (s : Str), b ∈ s → b ∈ peelLoopF fuel s := by
  intro fuel
  induction fuel with
  | zero => intro s h; simpa [peelLoopF] using h
  | succ fuel ih =>
    intro s h
    rw [peelLoopF]
    by_cases hfix : peelStep s = s
    · rw [if_pos hfix]; exact h
    · rw [if_neg hfix]
      exact ih (peelStep s) (mem_peelStep hb h)

theorem mem_peelLoop {s : Str} {b : Nat} (hb : 128 ≤ b) (h : b ∈ s) : b ∈ peelLoop s :=
  mem_peelLoopF hb (s.length + 1) s h

theorem peelLoopF_fix : ∀ (fuel : Nat) (s : Str), s.length < fuel →
    peelStep (peelLoopF fuel s) = peelLoopF fuel s := by
  intro fuel
  induction fuel with
  | zero => intro s h; omega
  | succ fuel ih =>
    intro s h
    rw [peelLoopF]
    by_cases hfix : peelStep s = s
    · rw [if_pos hfix, hfix]
    · rw [if_neg hfix]
      apply ih
      have := peelStep_shortens hfix
      omega

theorem peelLoop_fix (s : Str) : peelStep (peelLoop s) = peelLoop s :=
  peelLoopF_fix (s.length + 1) s (by omega)

theorem mem_collapseSpaces :
    ∀ {s : Str} {b : Nat}, b ∈ s → b ≠ 32 → b ∈ collapseSpaces s
  | [], b, h, _ => by simp at h
  | [c], b, h, _ => by simpa [collapseSpaces] using h
  | c1 :: c2 :: rest, b, h, hb => by
    by_cases h12 : c1 = 32 ∧ c2 = 32
    · rw [collapseSpaces, if_pos h12]
      rcases List.mem_cons.mp h with hx | hx
      · exact absurd (hx.trans h12.1) hb
      · exact mem_collapseSpaces hx hb
    · rw [collapseSpaces, if_neg h12]
      rcases List.mem_cons.mp h with hx | hx
      · exact List.mem_cons.mpr (Or.inl hx)
      · exact List.mem_cons.mpr (Or.inr (mem_collapseSpaces hx hb))

theorem mem_lowerStr_high {s : Str} {b : Nat} (hb : 128 ≤ b) (h : b ∈ s) : b ∈ lowerStr s := by
  have : toLowerByte b ∈ lowerStr s := List.mem_map_of_mem toLowerByte h
  rwa [toLowerByte_high b hb] at this

/-- Assembled preservation fact: a non-ASCII byte of the stem that survives
bracket removal is still present in the canonical key; none of the later
stages can delete it. -/
theorem mem_clean_nonascii {f : Str} {b : Nat} (hb : 128 ≤ b)
    (h : b ∈ stripBrackets (splitExt f).1) : b ∈ getCleanModName f := by
  unfold getCleanModName
  dsimp only
  apply List.mem_append.mpr
  left
  apply mem_lowerStr_high hb
  apply mem_trimSpaces _ (by omega)
  apply mem_collapseSpaces _ (by omega)
  apply mem_peelLoop hb
  apply mem_stripForLoader hb
  apply mem_stripLeadingVersion hb
  exact h

theorem head?_trimSpaces_ne {s : Str} {a : Nat} (h : (trimSpaces s).head? = some a) :
    a ≠ 32 := by
  unfold trimSpaces trimLeft at h
  have := head?_dropWhile_not h
  simpa using this

theorem classifyOne_state (mods : List ModInfo) (st : List DestPath) (n : Str) :
    (classifyOne mods st n).2 = st ∨ ∃ p, (classifyOne mods st n).2 = p :: st := by
  unfold classifyOne
  rcases hf : catalogFind mods (getCleanModName n) with _ | t
  · left; rfl
  · dsimp only
    by_cases hp : (modTypeToDirectory t, n) ∈ st
    · left; rw [if_pos hp]
    · right; exact ⟨(modTypeToDirectory t, n), by rw [if_neg hp]⟩

theorem runClassify_mono (mods : List ModInfo) (names : List Str) :
    ∀ (st : List DestPath) (p : DestPath), p ∈ st → p ∈ (runClassify mods names st).2 := by
  induction names with
  | nil => intro st p h; simpa [runClassify] using h
  | cons n rest ih =>
    intro st p h
    rw [runClassify]
    apply ih
    rcases classifyOne_state mods st n with hs | ⟨q, hs⟩
    · rw [hs]; exact h
    · rw [hs]; exact List.mem_cons.mpr (Or.inr h)

theorem runClassify_hit_mem (mods : List ModInfo) (names : List Str) :
    ∀ (st : List DestPath) (n : Str) (t : ModType), n ∈ names →
      catalogFind mods (getCleanModName n) = some t →
      (modTypeToDirectory t, n) ∈ (runClassify mods names st).2 := by
  induction names with
  | nil => intro st n t hn; simp at hn
  | cons m rest ih =>
    intro st n t hn hf
    rw [runClassify]
    rcases List.mem_cons.mp hn with hx | hx
    · subst hx
      apply runClassify_mono
      unfold classifyOne
      rw [hf]
      dsimp only
      by_cases hp : (modTypeToDirectory t, n) ∈ st
      · rw [if_pos hp]; exact hp
      · rw [if_neg hp]; exact List.mem_cons_self _ _
    · exact ih _ n t hx hf

theorem runClassify_allSkip (mods : List ModInfo) (names : List Str) :
    ∀ st : List DestPath,
      (∀ n ∈ names, ∀ t : ModType, catalogFind mods (getCleanModName n) = some t →
        (modTypeToDirectory t, n) ∈ st) →
      runClassify mods names st = (names.map (secondRunAction mods), st) := by
  induction names with
  | nil => intro st _; simp [runClassify]
  | cons n rest ih =>
    intro st h
    rw [runClassify]
    have hstep : classifyOne mods st n = (secondRunAction mods n, st) := by
      unfold classifyOne secondRunAction
      rcases hf : catalogFind mods (getCleanModName n) with _ | t
      · rfl
      · dsimp only
        rw [if_pos (h n (List.mem_cons_self _ _) t hf)]
    rw [hstep]
    dsimp only
    rw [ih st (fun m hm t ht => h m (List.mem_cons.mpr (Or.inr hm)) t ht)]
    simp

theorem lowerTrim_head_ne_space (z : Str) {a : Nat}
    (h : (lowerStr (trimSpaces z)).head? = some a) : a ≠ 32 := by
  rcases ht : trimSpaces z with _ | ⟨b, rest⟩
  · rw [ht] at h; simp [lowerStr] at h
  · rw [ht] at h
    have hb : b ≠ 32 := head?_trimSpaces_ne (by rw [ht]; rfl)
    have hba : toLowerByte b = a := by simpa [lowerStr] using h
    intro ha
    exact hb (toLowerByte_eq_space b (hba.trans ha))

/- ===== Claim theorems ===== -/

/-- C1, counterexample: on mod.JAR the normalizer returns mod.JAR unchanged:
the result does not end in the lowercase extension .jar and still contains
the uppercase letter J, refuting both halves of the claim. -/
theorem c1_counterexample :
    getCleanModName (ascii "mod.JAR") = ascii "mod.JAR" ∧
      ¬ List.IsSuffix (ascii ".jar") (getCleanModName (ascii "mod.JAR")) ∧
      74 ∈ getCleanModName (ascii "mod.JAR") := by
  refine ⟨by decide, ?_, by decide⟩
  intro hsuf
  have := hsuf.mem (a := 106) (by decide)
  revert this
  decide

/-- C1, amended: if f ends in a dot followed by a dot-free string x, the
normalizer reattaches the extension .x verbatim, without lowercasing it;
only the part of the result before the extension is free of ASCII uppercase
letters. -/
theorem c1_extension_reattached_verbatim (y x : Str) (hx : 46 ∉ x) :
    ∃ s, getCleanModName (y ++ 46 :: x) = s ++ 46 :: x ∧
      ∀ b ∈ s, ¬(65 ≤ b ∧ b ≤ 90) := by
  refine ⟨lowerStr (trimSpaces (collapseSpaces (peelLoop (stripForLoader
    (stripLeadingVersion (stripBrackets y)))))), ?_, ?_⟩
  · unfold getCleanModName
    rw [splitExt_append y x hx]
  · intro b hb
    obtain ⟨a, _, rfl⟩ := List.mem_map.mp hb
    exact toLowerByte_not_upper a

/-- C1, witness: instantiation of the amended theorem at mod.JAR. -/
theorem c1_witness :
    (46 ∉ ascii "JAR") ∧
      ∃ s, getCleanModName (ascii "mod" ++ 46 :: ascii "JAR") = s ++ 46 :: ascii "JAR" ∧
        ∀ b ∈ s, ¬(65 ≤ b ∧ b ≤ 90) :=
  ⟨by decide, c1_extension_reattached_verbatim (ascii "mod") (ascii "JAR") (by decide)⟩

/-- C2, counterexample: the normalizer does not return ironchests.jar on the
bracketed ironchests-forge1.20.1-14.4.4 filename. -/
theorem c2_counterexample : getCleanModName ironchestsName ≠ ascii "ironchests.jar" := by
  decide

/-- C2, amended: the normalizer has no loader-digit spacing stage, so the
run-together forge1 survives: on the bracketed ironchests filename it
returns ironchests-forge1.jar (only the trailing .20.1-14.4.4 is peeled). -/
theorem c2_no_loader_digit_spacing :
    getCleanModName ironchestsName = ascii "ironchests-forge1.jar" := by
  decide

/-- C3, counterexample: the middle-dot filename is returned unchanged and the
byte 183 of U+00B7 is still present in the stem of the returned key. -/
theorem c3_counterexample :
    getCleanModName midDotName = midDotName ∧
      183 ∈ (splitExt (getCleanModName midDotName)).1 := by
  decide

/-- C3, amended: the normalizer has no middle-dot scrub: every occurrence of
the byte 183 (second byte of U+00B7) in the stem that survives bracket
removal is still present in the returned key. -/
theorem c3_middot_not_scrubbed (f : Str) (h : 183 ∈ stripBrackets (splitExt f).1) :
    183 ∈ getCleanModName f :=
  mem_clean_nonascii (by omega) h

/-- C3, witness: instantiation of the amended theorem at the middle-dot
filename. -/
theorem c3_witness :
    183 ∈ stripBrackets (splitExt midDotName).1 ∧ 183 ∈ getCleanModName midDotName :=
  ⟨by decide, c3_middot_not_scrubbed midDotName (by decide)⟩

/-- C4, counterexample: on a stem of two Chinese characters followed by abc,
the claimed trim would return abc.jar, but the normalizer returns the
filename unchanged, non-ASCII prefix included. -/
theorem c4_counterexample :
    getCleanModName zhName = zhName ∧ getCleanModName zhName ≠ ascii "abc.jar" := by
  decide

/-- C4, amended: the normalizer performs no mixed-script prefix trim: every
non-ASCII byte of the stem that survives bracket removal is still present in
the returned key, so a non-ASCII prefix is never cut away. -/
theorem c4_no_mixed_script_trim (f : Str) (b : Nat) (hb : 128 ≤ b)
    (h : b ∈ stripBrackets (splitExt f).1) : b ∈ getCleanModName f :=
  mem_clean_nonascii hb h

/-- C4, witness: instantiation of the amended theorem at the mixed-script
filename with the lead byte 228 of the first Chinese character. -/
theorem c4_witness :
    (128 ≤ 228 ∧ 228 ∈ stripBrackets (splitExt zhName).1) ∧ 228 ∈ getCleanModName zhName :=
  ⟨⟨by omega, by decide⟩, c4_no_mixed_script_trim zhName 228 (by omega) (by decide)⟩

/-- C5: the classifier creates only six category subdirectories before
classifying; Unknown is not among them, although an unrecognized catalog
type maps to the Unknown category whose directory name is Unknown, so a
copy into it targets a directory that was never created. -/
theorem c5_unknown_dir_missing :
    ascii "Unknown" ∉ createdSubdirs ∧
      modTypeToDirectory ModType.Unknown = ascii "Unknown" ∧
      stringToModType (ascii "bogus_type") = ModType.Unknown := by
  decide

/-- C6, counterexample: on -abc.jar the normalizer keeps the leading hyphen,
so the result begins with a hyphen. -/
theorem c6_counterexample :
    getCleanModName (ascii "-abc.jar") = ascii "-abc.jar" ∧
      (getCleanModName (ascii "-abc.jar")).head? = some 45 := by
  decide

/-- C6, amended: the final cleanup trims only spaces, not hyphens or
underscores: the returned key never begins with a space, but it can begin or
end with a hyphen or underscore. -/
theorem c6_no_leading_space : ∀ f : Str, (getCleanModName f).head? ≠ some 32 := by
  intro f
  unfold getCleanModName
  dsimp only
  generalize collapseSpaces (peelLoop (stripForLoader (stripLeadingVersion
    (stripBrackets (splitExt f).1)))) = z
  cases hl : lowerStr (trimSpaces z) with
  | nil =>
    rcases splitExt_snd_shape f with hext | ⟨x, hext⟩
    · rw [hext]; simp
    · rw [hext]; simp
  | cons a restl =>
    have ha : a ≠ 32 := lowerTrim_head_ne_space z (by rw [hl]; rfl)
    simp [ha]

/-- C7: the normalizer is not idempotent: a leading space hides the
Minecraft-version prefix from the anchored prefix removal on the first pass
and is trimmed afterwards, so the second pass removes the now-leading
prefix. -/
theorem c7_not_idempotent :
    getCleanModName (ascii " 1.2-a b.jar") = ascii "1.2-a b.jar" ∧
      getCleanModName (ascii "1.2-a b.jar") = ascii "a b.jar" ∧
      getCleanModName (getCleanModName (ascii " 1.2-a b.jar")) ≠
        getCleanModName (ascii " 1.2-a b.jar") := by
  decide

/-- C8, counterexample: with a catalog array of a good element, an element
whose name is a number, and a second good element, the loader returns only
the first entry: the trailing well-formed element does not appear. -/
theorem c8_counterexample :
    readModDataFromJson (Json.arr [goodItem1, badItem, goodItem2]) =
        [{ name := ascii "a.jar", type := ModType.ClientOnly }] ∧
      ({ name := ascii "b.jar", type := ModType.ServerOnly } : ModInfo) ∉
        readModDataFromJson (Json.arr [goodItem1, badItem, goodItem2]) := by
  decide

/-- C8, amended: elements that are not objects or lack the name or type key
are logged and skipped individually and loading continues; but an element
whose name or type field is present with a non-string value throws a type
error that is caught outside the loop, so the entries collected before it
are returned and every later element, well-formed or not, is lost. -/
theorem c8_type_error_aborts_loop (rest : List Json) :
    readModDataFromJson (Json.arr (goodItem1 :: Json.num 5 :: goodItem2 :: badItem :: rest)) =
      [{ name := ascii "a.jar", type := ModType.ClientOnly },
       { name := ascii "b.jar", type := ModType.ServerOnly }] := by
  rfl

/-- C9: on a catalog hit whose destination path already exists as a regular
file, the classifier emits the skip action and leaves the state unchanged;
consequently a second run over the state left by a first run performs no
copies and emits one skip action per classified file and one unmatched
report per miss. -/
theorem c9_skip_existing_and_second_run :
    (∀ (mods : List ModInfo) (st : List DestPath) (name : Str) (t : ModType),
        catalogFind mods (getCleanModName name) = some t →
        (modTypeToDirectory t, name) ∈ st →
        classifyOne mods st name =
          (CAction.skippedExisting (modTypeToDirectory t, name), st)) ∧
    ∀ (mods : List ModInfo) (names : List Str) (st : List DestPath),
      (runClassify mods names (runClassify mods names st).2).1 =
        names.map (secondRunAction mods) := by
  constructor
  · intro mods st name t hf hp
    unfold classifyOne
    rw [hf]
    dsimp only
    rw [if_pos hp]
  · intro mods names st
    rw [runClassify_allSkip mods names _
      (fun n hn t ht => runClassify_hit_mem mods names st n t hn ht)]

/-- C9, witness: instantiation of the skip half at a one-entry catalog and a
state already holding the destination. -/
theorem c9_witness :
    catalogFind [{ name := ascii "a.jar", type := ModType.ClientOnly }]
        (getCleanModName (ascii "a.jar")) = some ModType.ClientOnly ∧
      classifyOne [{ name := ascii "a.jar", type := ModType.ClientOnly }]
          [(modTypeToDirectory ModType.ClientOnly, ascii "a.jar")] (ascii "a.jar") =
        (CAction.skippedExisting (modTypeToDirectory ModType.ClientOnly, ascii "a.jar"),
          [(modTypeToDirectory ModType.ClientOnly, ascii "a.jar")]) :=
  ⟨by decide,
    c9_skip_existing_and_second_run.1 _ _ _ ModType.ClientOnly (by decide) (by simp)⟩

/-- C10: the suffix-peel loop terminates: every application of the suffix
replacement that changes the stem removes at least a separator and a
non-empty token, hence shortens it by at least two bytes, and the fixed
point reached by the loop is stable under further replacement. -/
theorem c10_peel_terminates :
    (∀ s : Str, peelStep s ≠ s → (peelStep s).length + 2 ≤ s.length) ∧
      ∀ s : Str, peelStep (peelLoop s) = peelLoop s :=
  ⟨fun _ h => peelStep_shortens h, peelLoop_fix⟩

/-- C10, witness: instantiation of the shortening half at the stem a-1,
which the peel reduces to a. -/
theorem c10_witness :
    (peelStep (ascii "a-1") ≠ ascii "a-1" ∧
        (peelStep (ascii "a-1")).length + 2 ≤ (ascii "a-1").length) ∧
      peelStep (peelLoop (ascii "a-1")) = peelLoop (ascii "a-1") :=
  ⟨⟨by decide, c10_peel_terminates.1 (ascii "a-1") (by decide)⟩,
    c10_peel_terminates.2 (ascii "a-1")⟩

/- ===== Fidelity checks against the specification scenarios ===== -/

example : getCleanModName (ascii "JEI-1.16.5-7.7.1.152.jar") = ascii "jei.jar" := by decide
example : getCleanModName (ascii "1.12.2-JourneyMap-5.7.1.jar") = ascii "journeymap.jar" := by decide
example : getCleanModName (ascii "Sodium for Fabric 0.5.3.jar") = ascii "sodium.jar" := by decide
example : getCleanModName (ascii "AppleSkin-mc1.18-forge-2.4.0+mc1.18.jar") = ascii "appleskin.jar" := by decide
example : getCleanModName
    [91, 230, 155, 180, 229, 165, 189, 231, 154, 132, 233, 146, 147, 233, 177, 188, 93, 66,
     101, 116, 116, 101, 114, 70, 105, 115, 104, 105, 110, 103, 45, 102, 111, 114, 103, 101,
     45, 49, 46, 50, 48, 46, 49, 45, 50, 46, 48, 46, 48, 46, 106, 97, 114] =
    ascii "betterfishing.jar" := by decide

end ModClassifier
